import Mathlib

/-!
Verification of the tcgcsv Pokémon pricing pipeline
(`scripts/create_data/tcgcsv_pokemon_pipeline.py`).

The pipeline is shallowly embedded as follows:

* a pandas `DataFrame` of price facts is a `List FactRow`; dimension tables
  are `List ProductRow` / `List GroupRow`; an enriched (joined) frame is a
  `List EnrichedRow` whose dimension parts are `Option`s (null columns from a
  left join are `none`);
* dates (`YYYY-MM-DD` strings in the source, which compare lexicographically
  exactly as they compare chronologically) are modelled as `Nat`;
* the on-disk state of `base_dir` (tracking files, partition directories,
  dimension caches, rollup file) is a `PipelineState` record; partition
  directories are association lists keyed by date;
* the remote archive / catalog server is an `Env` of pure functions: the
  per-day outcome of download+extraction+harvest, the groups listing, and the
  per-group products fetch (with `none` for a raised fetch exception);
* the pandas keep-first duplicate removal on a subset of columns is
  `dedupByAux`, which keeps the first row of each key in order.
-/

namespace TCG

/-- Calendar dates, abbreviated as naturals: the source uses `YYYY-MM-DD`
strings whose lexicographic order coincides with chronological order. -/
abbrev Date := Nat

/-- One row of a raw daily price frame: the natural-key columns
(`product_id`, `date`, `sub_type_name`), the `groupid` tag added by
`harvest_prices_for_day`, and a representative price payload column. -/
structure FactRow where
  product_id : Nat
  date : Date
  sub_type_name : String
  groupid : String
  market_price : Int
deriving DecidableEq

/-- One row of the products dimension cache (`products.parquet`), after the
`group_id` column has been renamed to `groupid`.  `pname` stands for the
product attribute columns. -/
structure ProductRow where
  groupid : String
  product_id : Nat
  pname : String
deriving DecidableEq

/-- One row of the groups dimension cache (`groups.parquet`), after the
`group_id` column has been renamed to `groupid`. -/
structure GroupRow where
  groupid : String
  set_name : String
deriving DecidableEq

/-- One row of an enriched day partition (`daily/date=…/part.parquet`):
the fact columns plus the left-joined dimension columns, which are null
(`none`) when the join found no match. -/
structure EnrichedRow where
  fact : FactRow
  pr : Option ProductRow
  gr : Option GroupRow
deriving DecidableEq

/-- The dedup key used throughout the source:
`["product_id", "date", "sub_type_name"]`. -/
def keyE (e : EnrichedRow) : Nat × Date × String :=
  (e.fact.product_id, e.fact.date, e.fact.sub_type_name)

/-- The same natural key read off a raw fact row. -/
def keyF (f : FactRow) : Nat × Date × String :=
  (f.product_id, f.date, f.sub_type_name)

/-- `pandas.DataFrame.drop_duplicates(keep="first")` on key `k`, with an
accumulator of keys already seen: a row is kept iff its key has not occurred
before it. -/
def dedupByAux {α β : Type} [DecidableEq β] (k : α → β) :
    List β → List α → List α
  | _, [] => []
  | seen, x :: xs =>
    if k x ∈ seen then dedupByAux k seen xs
    else x :: dedupByAux k (k x :: seen) xs

/-- Lookup in a partition directory: `some rows` iff the
`date=…/part.parquet` file exists. -/
def assocLookup {α : Type} (d : Date) (l : List (Date × α)) : Option α :=
  (l.find? (fun p => p.1 == d)).map (fun p => p.2)

/-- Writing a partition file: overwrite the entry if the partition already
exists, else add it. -/
def assocInsert {α : Type} (d : Date) (v : α) (l : List (Date × α)) :
    List (Date × α) :=
  if l.any (fun p => p.1 == d) then
    l.map (fun p => if p.1 == d then (d, v) else p)
  else l ++ [(d, v)]

/-- The on-disk contents of `base_dir` (temporary `archives/` and
`extracted/` directories are not modelled). -/
structure PipelineState where
  processedDays : List Date
  processedProducts : List String
  rawPartitions : List (Date × List FactRow)
  enrichedPartitions : List (Date × List EnrichedRow)
  groupsCache : Option (List GroupRow)
  productsCache : Option (List ProductRow)
  rollup : Option (List EnrichedRow)
deriving DecidableEq

/-- What `download_archive` + `extract_archive` + `harvest_prices_for_day`
produce for one date: the archive is missing (`None` from
`download_archive`), extraction finds no category directory (`None` from
`extract_archive`), or a harvested frame together with whether the
partition write (`to_parquet`) succeeds; a failed write raises and aborts
the run. -/
inductive DayOutcome where
  | noArchive
  | noExtract
  | harvested (rows : List FactRow) (writeOk : Bool)

/-- The external collaborators: per-day harvest outcome, the groups
listing returned by `fetch_groups`, and per-group product fetches
(`none` models a raised exception inside `fetch_products_for_group`). -/
structure Env where
  outcome : Date → DayOutcome
  fetchGroups : List GroupRow
  fetchProducts : String → Option (List ProductRow)

/-- `df["date"] = date_str` inside `harvest_prices_for_day`: every row of
the day's frame carries that day's date. -/
def stampDate (d : Date) (rows : List FactRow) : List FactRow :=
  rows.map (fun r => { r with date := d })

/-- The candidate dates of the harvesting loop `while d <= end_date`,
stepping by `--interval` days; fuel-driven so that it computes by
structural recursion (the fuel `endd + 1 - start` suffices whenever
`1 ≤ step`, matching the terminating executions of the source loop). -/
def candidateDatesFuel : Nat → Date → Date → Nat → List Date
  | 0, _, _, _ => []
  | fuel + 1, d, endd, step =>
    if d ≤ endd then d :: candidateDatesFuel fuel (d + step) endd step
    else []

/-- The list of dates visited by one run of the harvesting loop. -/
def candidateDates (start endd : Date) (step : Nat) : List Date :=
  candidateDatesFuel (endd + 1 - start) start endd step

/-- The body of `build_prices`' harvesting loop, iterated over the
candidate dates; returns the final state, the `new_days` list, and whether
the run aborted on a partition-write exception. -/
def buildPricesGo (env : Env) :
    PipelineState → List Date → List Date → PipelineState × List Date × Bool
  | s, nd, [] => (s, nd, false)
  | s, nd, d :: ds =>
    if d ∈ s.processedDays then buildPricesGo env s nd ds
    else
      match env.outcome d with
      | .noArchive => buildPricesGo env s nd ds
      | .noExtract => buildPricesGo env s nd ds
      | .harvested rows wOk =>
        let df := stampDate d rows
        if df.isEmpty then buildPricesGo env s nd ds
        else if wOk then
          buildPricesGo env
            { s with
              rawPartitions := assocInsert d df s.rawPartitions,
              processedDays := s.processedDays ++ [d] }
            (nd ++ [d]) ds
        else (s, nd, true)

/-- `build_prices`: harvest every candidate date in the range.  (The
column pruning `PRUNE_COLS` is a no-op on the typed rows; the returned
concatenation `all_frames` is never used by `main` and is omitted.) -/
def buildPrices (env : Env) (start endd : Date) (step : Nat)
    (s : PipelineState) : PipelineState × List Date × Bool :=
  buildPricesGo env s [] (candidateDates start endd step)

/-- The per-group loop of `build_products_and_groups`: skip a group when it
is tracked processed AND the products cache file exists (the file is only
(re)written after the loop, so its existence is constant during the loop);
otherwise fetch the group's products, and if the frame is nonempty, tag its
rows with the group id, accumulate them, and mark the group processed.  A
raised fetch (`none`) is caught and the group skipped without marking. -/
def fetchLoop (env : Env) (cacheExists : Bool) :
    List String → PipelineState → PipelineState × List ProductRow
  | [], s => (s, [])
  | gid :: rest, s =>
    if gid ∈ s.processedProducts ∧ cacheExists then
      fetchLoop env cacheExists rest s
    else
      match env.fetchProducts gid with
      | none => fetchLoop env cacheExists rest s
      | some df =>
        if df.isEmpty then fetchLoop env cacheExists rest s
        else
          let tagged := df.map (fun p => { p with groupid := gid })
          let res := fetchLoop env cacheExists rest
            { s with processedProducts := s.processedProducts ++ [gid] }
          (res.1, tagged ++ res.2)

/-- `build_products_and_groups`: read or fetch the groups cache, run the
per-group fetch loop over the distinct group ids (first-occurrence order,
as `pandas.unique`), then — if any new product rows were fetched —
persist `old cache ++ new rows` to `products.parquet` and return that
concatenation deduplicated (exact duplicate rows, keep-first); note that
in the source the `drop_duplicates` at the end acts on the returned
in-memory frame only: the cache file is written *before* it.  The renames
`group_id → groupid` are identity on the typed rows. -/
def buildProductsAndGroups (env : Env) (s : PipelineState) :
    PipelineState × List GroupRow × List ProductRow :=
  let gs : List GroupRow × PipelineState :=
    match s.groupsCache with
    | some g => (g, s)
    | none => (env.fetchGroups, { s with groupsCache := some env.fetchGroups })
  let groups := gs.1
  let s0 := gs.2
  let gids := dedupByAux id [] (groups.map (fun g => g.groupid))
  let cacheExists := s0.productsCache.isSome
  let res := fetchLoop env cacheExists gids s0
  let s1 := res.1
  let newProducts := res.2
  if newProducts.isEmpty then
    (s1, groups, dedupByAux id [] (s1.productsCache.getD []))
  else
    let persisted := s1.productsCache.getD [] ++ newProducts
    ({ s1 with productsCache := some persisted }, groups,
      dedupByAux id [] persisted)

/-- `key.startswith("attack")` on character lists: is the first argument an
initial segment of the second? -/
def listBegins : List Char → List Char → Bool
  | [], _ => true
  | _ :: _, [] => false
  | p :: ps, c :: cs => p == c && listBegins ps cs

/-- `s.startswith(p)` of the source, on the underlying character lists. -/
def strBegins (s p : String) : Bool := listBegins p.data s.data

/-- The `extendedData` loop of `fetch_products_for_group`, carrying the
running `attacks_seen` counter: an entry with empty normalized key is
skipped; an entry whose key starts with `attack` bumps the counter and is
dropped once the counter exceeds 2, else renamed to `attack_<counter>`;
other entries pass through.  Keys are taken post-`to_snake` (column-name
normalization is an external collaborator per the spec's scope). -/
def flattenExt : Nat → List (String × String) → List (String × String)
  | _, [] => []
  | seen, (k, v) :: rest =>
    if k = "" then flattenExt seen rest
    else if strBegins k "attack" then
      if seen + 1 > 2 then flattenExt (seen + 1) rest
      else ("attack_" ++ toString (seen + 1), v) :: flattenExt (seen + 1) rest
    else (k, v) :: flattenExt seen rest

/-- The flat dict built for one product by `fetch_products_for_group`:
the product's own fields (minus `presaleInfo`/`extendedData`), then the
presale fields under a `presale_` prefix, then the processed
`extendedData` entries.  Later assignments overwrite earlier ones. -/
def flattenProduct (base presale ext : List (String × String)) :
    List (String × String) :=
  base ++ presale.map (fun kv => ("presale_" ++ kv.1, kv.2)) ++
    flattenExt 0 ext

/-- Dict lookup in an assignment list: the *last* assignment of a key
wins, as for a Python dict built by successive `flat[key] = val`. -/
def dictGet (l : List (String × String)) (k : String) : Option String :=
  (l.reverse.find? (fun kv => kv.1 == k)).map (fun kv => kv.2)

/-- An `extendedData` entry counted as an attack by the source loop:
nonempty normalized key starting with `attack`. -/
def isAttackKey (k : String) : Bool := !(k == "") && strBegins k "attack"

/-- The attack entries of an `extendedData` list, in order. -/
def attacksOf (ext : List (String × String)) : List (String × String) :=
  ext.filter (fun kv => isAttackKey kv.1)

/-- `day_prices.merge(products_df, on=["groupid", "product_id"],
how="left")`: every fact row is paired with each matching product row, or
with `none` when no product matches. -/
def leftJoinProducts (facts : List FactRow) (prods : List ProductRow) :
    List (FactRow × Option ProductRow) :=
  facts.flatMap (fun f =>
    let ms := prods.filter
      (fun p => p.groupid == f.groupid && p.product_id == f.product_id)
    match ms with
    | [] => [(f, none)]
    | _ => ms.map (fun p => (f, some p)))

/-- `.merge(groups_df, on="groupid", how="left")` applied to the result of
the first join: key is the fact's `groupid` column. -/
def leftJoinGroups (xs : List (FactRow × Option ProductRow))
    (groups : List GroupRow) : List EnrichedRow :=
  xs.flatMap (fun fp =>
    let ms := groups.filter (fun g => g.groupid == fp.1.groupid)
    match ms with
    | [] => [⟨fp.1, fp.2, none⟩]
    | _ => ms.map (fun g => ⟨fp.1, fp.2, some g⟩))

/-- The two left joins of `main`'s merge stage, before deduplication. -/
def mergeDayPre (facts : List FactRow) (prods : List ProductRow)
    (groups : List GroupRow) : List EnrichedRow :=
  leftJoinGroups (leftJoinProducts facts prods) groups

/-- One enriched day partition as written by `main`:
left-join to products, left-join to groups, then
`drop_duplicates(subset=["product_id", "date", "sub_type_name"],
keep="first")`. -/
def mergeDay (facts : List FactRow) (prods : List ProductRow)
    (groups : List GroupRow) : List EnrichedRow :=
  dedupByAux keyE [] (mergeDayPre facts prods groups)

/-- Stage 3 of `main`: for each newly harvested day, read its raw
partition (a missing file would raise, aborting the run: flag `true`),
merge, and overwrite the enriched partition. -/
def mergeNewDays (prods : List ProductRow) (groups : List GroupRow) :
    PipelineState → List Date → PipelineState × Bool
  | s, [] => (s, false)
  | s, day :: rest =>
    match assocLookup day s.rawPartitions with
    | none => (s, true)
    | some facts =>
      mergeNewDays prods groups
        { s with
          enrichedPartitions :=
            assocInsert day (mergeDay facts prods groups)
              s.enrichedPartitions }
        rest

/-- The distinct `date` values of a frame, as a finite set (the source
compares Python sets of the `date` column against partition names). -/
def dateSet (rows : List EnrichedRow) : Finset Date :=
  (rows.map (fun e => e.fact.date)).toFinset

/-- The set of partition-directory dates of `daily/` on disk. -/
def partKeySet (s : PipelineState) : Finset Date :=
  (s.enrichedPartitions.map (fun p => p.1)).toFinset

/-- `build_full_file`: if the rollup exists and its distinct dates equal
the partition dates on disk, no-op; otherwise concatenate every enriched
partition and overwrite the rollup.  `pd.concat` of an empty list of
frames raises (`none`): with no partitions and a rebuild forced, the run
aborts without writing. -/
def buildFullFile (s : PipelineState) : Option PipelineState :=
  let rebuild : Option PipelineState :=
    if s.enrichedPartitions.isEmpty then none
    else some { s with
      rollup := some (s.enrichedPartitions.flatMap (fun p => p.2)) }
  match s.rollup with
  | some old => if dateSet old = partKeySet s then some s else rebuild
  | none => rebuild

/-- `append_to_full_file`: with no rollup file fall back to
`build_full_file`; otherwise read the new days' enriched partitions
(skipping dates whose partition file is missing), and if any file was
found, concatenate with the old rollup, deduplicate on
`(product_id, date, sub_type_name)` keep-first, and overwrite. -/
def appendToFullFile (s : PipelineState) (newDays : List Date) :
    Option PipelineState :=
  match s.rollup with
  | none => buildFullFile s
  | some old =>
    let newFrames := newDays.filterMap
      (fun day => assocLookup day s.enrichedPartitions)
    if newFrames.isEmpty then some s
    else
      let newDf := newFrames.flatMap id
      some { s with rollup := some (dedupByAux keyE [] (old ++ newDf)) }

/-- Sort order of `prune_old_daily_prices`: by partition date,
descending (newest first). -/
def descByDate (a b : Date × List FactRow) : Prop := b.1 ≤ a.1

instance : DecidableRel descByDate := fun a b => Nat.decLe b.1 a.1

instance : IsTotal (Date × List FactRow) descByDate :=
  ⟨fun a b => Nat.le_total b.1 a.1⟩

instance : IsTrans (Date × List FactRow) descByDate :=
  ⟨fun _ _ _ h1 h2 => Nat.le_trans h2 h1⟩

/-- `prune_old_daily_prices`: sort the raw `daily_prices` partitions by
date descending, keep the newest `keep_days`, delete the rest.  (An empty
directory returns untouched.) -/
def pruneOldDailyPrices (s : PipelineState) (keepDays : Nat) :
    PipelineState :=
  if s.rawPartitions.isEmpty then s
  else
    { s with
      rawPartitions :=
        (s.rawPartitions.insertionSort descByDate).take keepDays }

/-- The CLI arguments of one run that the model depends on. -/
structure Config where
  startDate : Date
  endDate : Date
  interval : Nat
  fullFile : Bool

/-- Stages 2 and 3 of `main`: build the dimension tables, then merge each
new day's raw partition with them and write the enriched partitions. -/
def mainMergeStage (env : Env) (s1 : PipelineState) (newDays : List Date) :
    PipelineState × Bool :=
  let r2 := buildProductsAndGroups env s1
  mergeNewDays r2.2.2 r2.2.1 r2.1 newDays

/-- Stages 4 and 5 of `main`: optionally rebuild the rollup — `main` calls
`build_full_file`, never `append_to_full_file` — then clean up and prune
old raw partitions with `keep_days=7`.  A `build_full_file` exception
(`none`) aborts before pruning. -/
def mainFinalStages (cfg : Config) (s3 : PipelineState) : PipelineState :=
  match (if cfg.fullFile then buildFullFile s3 else some s3) with
  | none => s3
  | some s4 => pruneOldDailyPrices s4 7

/-- `main`: harvest (stage 1); return early if no new days; build
dimensions (stage 2); merge the new days (stage 3); optionally rebuild the
rollup (stage 4); prune old raw partitions (stage 5).  A raised exception
at any stage leaves the state written so far. -/
def mainRun (env : Env) (cfg : Config) (s : PipelineState) : PipelineState :=
  let r1 := buildPrices env cfg.startDate cfg.endDate cfg.interval s
  if r1.2.2 then r1.1
  else if r1.2.1.isEmpty then r1.1
  else
    let r3 := mainMergeStage env r1.1 r1.2.1
    if r3.2 then r3.1
    else mainFinalStages cfg r3.1

/-- The skip conditions of one step of the harvesting loop: archive
missing, extraction failed, the day's frame empty after harvesting, or the
partition write failing. -/
def outcomeFails (env : Env) (d : Date) : Bool :=
  match env.outcome d with
  | .noArchive => true
  | .noExtract => true
  | .harvested rows wOk => (stampDate d rows).isEmpty || !wOk

/-- The enriched partition store is as the pipeline itself writes it:
partition keys are distinct, each partition is key-unique, and every row
of a partition carries the partition's date. -/
def partitionsWellFormed (s : PipelineState) : Prop :=
  (s.enrichedPartitions.map (fun p => p.1)).Nodup ∧
  ∀ p ∈ s.enrichedPartitions,
    p.2.Pairwise (fun a b => keyE a ≠ keyE b) ∧
    ∀ r ∈ p.2, r.fact.date = p.1

/-- The rebuild condition of `build_full_file`: no rollup file yet, or its
distinct dates disagree with the partition dates on disk. -/
def rebuildForced (s : PipelineState) : Prop :=
  s.rollup = none ∨
  ∃ old, s.rollup = some old ∧ dateSet old ≠ partKeySet s

/-! Concrete sample data for witnesses and counterexamples. -/

def sampleFact : FactRow := ⟨77, 0, "Normal", "g1", 5⟩

def sampleFact2 : FactRow := ⟨78, 1, "Holofoil", "g1", 9⟩

def sampleProduct : ProductRow := ⟨"g1", 77, "Pikachu"⟩

def sampleGroup : GroupRow := ⟨"g1", "Base Set"⟩

def sampleEnriched : EnrichedRow := ⟨sampleFact, none, none⟩

def sampleEnriched2 : EnrichedRow := ⟨sampleFact2, none, none⟩

def emptyState : PipelineState := ⟨[], [], [], [], none, none, none⟩

/-- An environment with data on day 0 only; group fetches succeed for the
sample group. -/
def sampleEnv : Env where
  outcome d := if d = 0 then .harvested [sampleFact] true else .noArchive
  fetchGroups := [sampleGroup]
  fetchProducts g := if g = "g1" then some [sampleProduct] else none

/-- A store whose rollup holds day 0 but whose enriched partition
directory is empty: `build_full_file` must rebuild, and `pd.concat` of no
frames raises. -/
def staleRollupState : PipelineState :=
  { emptyState with rollup := some [sampleEnriched] }

/-- A store whose rollup holds day 0 while the enriched directory holds
day 1 only: full rebuild and incremental append disagree on it. -/
def divergedState : PipelineState :=
  { emptyState with
    rollup := some [sampleEnriched],
    enrichedPartitions := [(1, [sampleEnriched2])] }

/-- A store with a cached product row whose re-fetch duplicates it. -/
def dupCacheState : PipelineState :=
  { emptyState with
    groupsCache := some [sampleGroup],
    productsCache := some [sampleProduct] }

/-- A store with a groups cache but no products cache yet. -/
def gcacheState : PipelineState :=
  { emptyState with groupsCache := some [sampleGroup] }

/-- A store with one enriched partition for day 0 and no rollup. -/
def freshPartState : PipelineState :=
  { emptyState with enrichedPartitions := [(0, [sampleEnriched])] }

/-- `freshPartState` with a rollup that already matches the partitions. -/
def freshPartState2 : PipelineState :=
  { freshPartState with rollup := some [sampleEnriched] }

/-- A store with two raw day partitions, for the pruning witness. -/
def twoRawState : PipelineState :=
  { emptyState with
    rawPartitions := [(0, [sampleFact]), (1, [sampleFact2])] }

/-! ### Generic lemmas about keep-first deduplication -/

theorem dedupByAux_sublist {α β : Type} [DecidableEq β] (k : α → β)
    (seen : List β) (l : List α) :
    List.Sublist (dedupByAux k seen l) l := by
  induction l generalizing seen with
  | nil => simp [dedupByAux]
  | cons a l ih =>
    simp only [dedupByAux]
    by_cases h : k a ∈ seen
    · rw [if_pos h]
      exact (ih seen).trans (List.sublist_cons_self a l)
    · rw [if_neg h]
      exact List.Sublist.cons₂ a (ih (k a :: seen))

theorem mem_of_mem_dedupByAux {α β : Type} [DecidableEq β] {k : α → β}
    {seen : List β} {l : List α} {x : α} (h : x ∈ dedupByAux k seen l) :
    x ∈ l :=
  (dedupByAux_sublist k seen l).subset h

theorem length_dedupByAux_le {α β : Type} [DecidableEq β] (k : α → β)
    (seen : List β) (l : List α) :
    (dedupByAux k seen l).length ≤ l.length :=
  (dedupByAux_sublist k seen l).length_le

theorem key_not_mem_seen_of_mem_dedupByAux {α β : Type} [DecidableEq β]
    {k : α → β} {seen : List β} {l : List α} {x : α}
    (h : x ∈ dedupByAux k seen l) : k x ∉ seen := by
  induction l generalizing seen with
  | nil => simp [dedupByAux] at h
  | cons a l ih =>
    simp only [dedupByAux] at h
    split at h
    · exact ih h
    · rcases List.mem_cons.1 h with rfl | h'
      · assumption
      · intro hx
        exact ih h' (List.mem_cons_of_mem _ hx)

theorem pairwise_dedupByAux {α β : Type} [DecidableEq β] (k : α → β)
    (seen : List β) (l : List α) :
    (dedupByAux k seen l).Pairwise (fun a b => k a ≠ k b) := by
  induction l generalizing seen with
  | nil => simp [dedupByAux]
  | cons a l ih =>
    simp only [dedupByAux]
    split
    · exact ih seen
    · refine List.Pairwise.cons ?_ (ih (k a :: seen))
      intro b hb hkb
      exact key_not_mem_seen_of_mem_dedupByAux hb (hkb ▸ List.mem_cons_self _ _)

theorem exists_key_mem_dedupByAux {α β : Type} [DecidableEq β] {k : α → β}
    {seen : List β} {l : List α} {c : β} (hc : c ∉ seen)
    (h : ∃ y ∈ l, k y = c) : ∃ y ∈ dedupByAux k seen l, k y = c := by
  induction l generalizing seen with
  | nil => simp at h
  | cons a l ih =>
    simp only [dedupByAux]
    by_cases hka : k a ∈ seen
    · rw [if_pos hka]
      rcases h with ⟨y, hy, hyk⟩
      rcases List.mem_cons.1 hy with rfl | hy'
      · exact absurd (hyk ▸ hka) hc
      · exact ih hc ⟨y, hy', hyk⟩
    · rw [if_neg hka]
      by_cases hca : c = k a
      · exact ⟨a, List.mem_cons_self _ _, hca.symm⟩
      · rcases h with ⟨y, hy, hyk⟩
        rcases List.mem_cons.1 hy with rfl | hy'
        · exact absurd (hyk.symm) hca
        · have hc' : c ∉ k a :: seen := by
            intro hmem
            rcases List.mem_cons.1 hmem with h1 | h2
            · exact hca h1
            · exact hc h2
          rcases ih hc' ⟨y, hy', hyk⟩ with ⟨z, hz, hzk⟩
          exact ⟨z, List.mem_cons_of_mem _ hz, hzk⟩

theorem dedupByAux_congr_seen {α β : Type} [DecidableEq β] (k : α → β)
    {s1 s2 : List β} (hs : ∀ b, b ∈ s1 ↔ b ∈ s2) (l : List α) :
    dedupByAux k s1 l = dedupByAux k s2 l := by
  induction l generalizing s1 s2 with
  | nil => simp [dedupByAux]
  | cons a l ih =>
    simp only [dedupByAux]
    by_cases h : k a ∈ s1
    · rw [if_pos h, if_pos ((hs _).1 h)]
      exact ih hs
    · rw [if_neg h, if_neg (fun h2 => h ((hs _).2 h2))]
      refine congrArg _ (ih ?_)
      intro b
      simp only [List.mem_cons]
      exact or_congr Iff.rfl (hs b)

theorem dedupByAux_append {α β : Type} [DecidableEq β] (k : α → β)
    (old new : List α) : ∀ (seen : List β),
      (∀ a ∈ old, k a ∉ seen) →
      old.Pairwise (fun a b => k a ≠ k b) →
      dedupByAux k seen (old ++ new) =
        old ++ dedupByAux k (old.reverse.map k ++ seen) new := by
  induction old with
  | nil => intro seen _ _; simp
  | cons o old ih =>
    intro seen hseen hpw
    have ho : k o ∉ seen := hseen o (List.mem_cons_self _ _)
    have hpw' := List.pairwise_cons.1 hpw
    have hseen' : ∀ a ∈ old, k a ∉ k o :: seen := by
      intro a ha hmem
      rcases List.mem_cons.1 hmem with h1 | h2
      · exact hpw'.1 a ha h1.symm
      · exact hseen a (List.mem_cons_of_mem _ ha) h2
    calc dedupByAux k seen (o :: old ++ new)
        = o :: dedupByAux k (k o :: seen) (old ++ new) := by
          simp only [List.cons_append, dedupByAux, if_neg ho, List.append_eq]
      _ = o :: (old ++ dedupByAux k (old.reverse.map k ++ (k o :: seen)) new) := by
          rw [ih (k o :: seen) hseen' hpw'.2]
      _ = (o :: old) ++ dedupByAux k ((o :: old).reverse.map k ++ seen) new := by
          simp [List.append_assoc]

/-- The length of `dedupByAux` over `old ++ new` when `old` is already
key-unique and disjoint from `seen`. -/
theorem length_dedupByAux_append {α β : Type} [DecidableEq β] (k : α → β)
    (old new : List α) (hd : ∀ a ∈ old, k a ∉ ([] : List β))
    (hpw : old.Pairwise (fun a b => k a ≠ k b)) :
    (dedupByAux k [] (old ++ new)).length =
      old.length + (dedupByAux k (old.map k) new).length := by
  rw [dedupByAux_append k old new [] hd hpw, List.length_append]
  congr 1
  refine congrArg _ (dedupByAux_congr_seen k ?_ new)
  intro b
  simp

/-! ### Lemmas about partition-directory association lists -/

theorem find?_map_overwrite {α : Type} (d : Date) (v : α)
    (l : List (Date × α)) : l.any (fun p => p.1 == d) = true →
      ((l.map (fun p => if p.1 == d then (d, v) else p)).find?
        (fun p => p.1 == d)) = some (d, v) := by
  induction l with
  | nil => intro h; simp at h
  | cons p l ih =>
    intro h
    by_cases hp : p.1 = d
    · simp [hp]
    · have hp' : (p.1 == d) = false := by simp [hp]
      have h2 : l.any (fun p => p.1 == d) = true := by
        simpa [List.any_cons, hp'] using h
      simp only [List.map_cons]
      rw [if_neg (by simp [hp] : ¬((p.1 == d) = true)),
        List.find?_cons_of_neg _ (by simp [hp])]
      exact ih h2

theorem find?_map_overwrite_ne {α : Type} {d d' : Date} (hne : d' ≠ d)
    (v : α) (l : List (Date × α)) :
    ((l.map (fun p => if p.1 == d then (d, v) else p)).find?
      (fun p => p.1 == d')) = l.find? (fun p => p.1 == d') := by
  induction l with
  | nil => simp
  | cons p l ih =>
    simp only [List.map_cons]
    by_cases hp : p.1 = d
    · have hd : ¬(d = d') := fun h2 => hne h2.symm
      have hpd' : ¬(p.1 = d') := by rw [hp]; exact hd
      rw [if_pos (by simp [hp] : (p.1 == d) = true),
        List.find?_cons_of_neg _ (by simp [hd]),
        List.find?_cons_of_neg _ (by simp [hpd'])]
      exact ih
    · rw [if_neg (by simp [hp] : ¬((p.1 == d) = true))]
      by_cases hq : p.1 = d'
      · rw [List.find?_cons_of_pos _ (by simp [hq]),
          List.find?_cons_of_pos _ (by simp [hq])]
      · rw [List.find?_cons_of_neg _ (by simp [hq]),
          List.find?_cons_of_neg _ (by simp [hq])]
        exact ih

theorem assocLookup_insert_self {α : Type} (d : Date) (v : α)
    (l : List (Date × α)) : assocLookup d (assocInsert d v l) = some v := by
  unfold assocLookup assocInsert
  by_cases h : l.any (fun p => p.1 == d) = true
  · rw [if_pos h, find?_map_overwrite d v l h]
    rfl
  · rw [if_neg h]
    have hnone : l.find? (fun p => p.1 == d) = none := by
      rw [List.find?_eq_none]
      intro p hp hpd
      exact h (List.any_eq_true.2 ⟨p, hp, hpd⟩)
    rw [List.find?_append, hnone]
    simp

theorem assocLookup_insert_ne {α : Type} {d d' : Date} (hne : d' ≠ d)
    (v : α) (l : List (Date × α)) :
    assocLookup d' (assocInsert d v l) = assocLookup d' l := by
  unfold assocLookup assocInsert
  by_cases h : l.any (fun p => p.1 == d) = true
  · rw [if_pos h, find?_map_overwrite_ne hne v l]
  · rw [if_neg h, List.find?_append]
    have hd : ¬(d = d') := fun h2 => hne h2.symm
    cases hfind : l.find? (fun p => p.1 == d') with
    | none => simp [hd]
    | some q => simp

/-! ### Lemmas about the harvesting loop (`build_prices`) -/

theorem buildPricesGo_lookup_preserved (env : Env) :
    ∀ (ds : List Date) (s : PipelineState) (nd : List Date) (d : Date),
      d ∈ s.processedDays →
      assocLookup d (buildPricesGo env s nd ds).1.rawPartitions =
        assocLookup d s.rawPartitions := by
  intro ds
  induction ds with
  | nil => intro s nd d _; rfl
  | cons d' ds ih =>
    intro s nd d hd
    by_cases hmem : d' ∈ s.processedDays
    · rw [show buildPricesGo env s nd (d' :: ds) = buildPricesGo env s nd ds
        from by simp only [buildPricesGo, if_pos hmem]]
      exact ih s nd d hd
    · cases hout : env.outcome d' with
      | noArchive =>
        rw [show buildPricesGo env s nd (d' :: ds) = buildPricesGo env s nd ds
          from by simp only [buildPricesGo, if_neg hmem, hout]]
        exact ih s nd d hd
      | noExtract =>
        rw [show buildPricesGo env s nd (d' :: ds) = buildPricesGo env s nd ds
          from by simp only [buildPricesGo, if_neg hmem, hout]]
        exact ih s nd d hd
      | harvested rows wOk =>
        by_cases hemp : (stampDate d' rows).isEmpty = true
        · rw [show buildPricesGo env s nd (d' :: ds) =
              buildPricesGo env s nd ds from by
            simp only [buildPricesGo, if_neg hmem, hout, hemp, if_pos]]
          exact ih s nd d hd
        · cases hw : wOk with
          | true =>
            rw [show buildPricesGo env s nd (d' :: ds) =
                buildPricesGo env
                  { s with
                    rawPartitions :=
                      assocInsert d' (stampDate d' rows) s.rawPartitions,
                    processedDays := s.processedDays ++ [d'] }
                  (nd ++ [d']) ds from by
              simp only [buildPricesGo, if_neg hmem, hout, hemp, hw,
                Bool.false_eq_true, if_false, if_true]]
            rw [ih _ _ d (List.mem_append_left _ hd)]
            have hne : d ≠ d' := fun h => hmem (h ▸ hd)
            exact assocLookup_insert_ne hne _ _
          | false =>
            rw [show buildPricesGo env s nd (d' :: ds) = (s, nd, true) from by
              simp only [buildPricesGo, if_neg hmem, hout, hemp, hw,
                Bool.false_eq_true, if_false]]

/-- One run of the harvesting loop: the `new_days` output is appended to
the input accumulator; `processed_days.txt` gains exactly `new_days`; a
run that adds nothing changes nothing; every newly marked date was
unprocessed, lies in the visited range, had a successfully harvested
nonempty frame with a successful write, and its raw partition now holds
exactly that frame; and no other part of the state is touched. -/
theorem buildPricesGo_spec (env : Env) :
    ∀ (ds : List Date) (s : PipelineState) (nd : List Date),
      ∃ added : List Date,
        (buildPricesGo env s nd ds).2.1 = nd ++ added ∧
        (buildPricesGo env s nd ds).1.processedDays =
          s.processedDays ++ added ∧
        (added = [] → (buildPricesGo env s nd ds).1 = s) ∧
        (∀ x ∈ added, x ∉ s.processedDays ∧ x ∈ ds ∧
          ∃ rows, env.outcome x = .harvested rows true ∧
            (stampDate x rows).isEmpty = false ∧
            assocLookup x (buildPricesGo env s nd ds).1.rawPartitions =
              some (stampDate x rows)) ∧
        (buildPricesGo env s nd ds).1.enrichedPartitions =
          s.enrichedPartitions ∧
        (buildPricesGo env s nd ds).1.rollup = s.rollup ∧
        (buildPricesGo env s nd ds).1.groupsCache = s.groupsCache ∧
        (buildPricesGo env s nd ds).1.productsCache = s.productsCache ∧
        (buildPricesGo env s nd ds).1.processedProducts =
          s.processedProducts := by
  intro ds
  induction ds with
  | nil =>
    intro s nd
    exact ⟨[], by simp [buildPricesGo], by simp [buildPricesGo],
      fun _ => rfl, by simp, rfl, rfl, rfl, rfl, rfl⟩
  | cons d' ds ih =>
    intro s nd
    by_cases hmem : d' ∈ s.processedDays
    · rw [show buildPricesGo env s nd (d' :: ds) = buildPricesGo env s nd ds
        from by simp only [buildPricesGo, if_pos hmem]]
      rcases ih s nd with ⟨added, h1, h2, h3, h4, h5⟩
      exact ⟨added, h1, h2, h3,
        fun x hx => ⟨(h4 x hx).1,
          List.mem_cons_of_mem _ (h4 x hx).2.1, (h4 x hx).2.2⟩, h5⟩
    · cases hout : env.outcome d' with
      | noArchive =>
        rw [show buildPricesGo env s nd (d' :: ds) = buildPricesGo env s nd ds
          from by simp only [buildPricesGo, if_neg hmem, hout]]
        rcases ih s nd with ⟨added, h1, h2, h3, h4, h5⟩
        exact ⟨added, h1, h2, h3,
          fun x hx => ⟨(h4 x hx).1,
            List.mem_cons_of_mem _ (h4 x hx).2.1, (h4 x hx).2.2⟩, h5⟩
      | noExtract =>
        rw [show buildPricesGo env s nd (d' :: ds) = buildPricesGo env s nd ds
          from by simp only [buildPricesGo, if_neg hmem, hout]]
        rcases ih s nd with ⟨added, h1, h2, h3, h4, h5⟩
        exact ⟨added, h1, h2, h3,
          fun x hx => ⟨(h4 x hx).1,
            List.mem_cons_of_mem _ (h4 x hx).2.1, (h4 x hx).2.2⟩, h5⟩
      | harvested rows wOk =>
        by_cases hemp : (stampDate d' rows).isEmpty = true
        · rw [show buildPricesGo env s nd (d' :: ds) =
              buildPricesGo env s nd ds from by
            simp only [buildPricesGo, if_neg hmem, hout, hemp, if_pos]]
          rcases ih s nd with ⟨added, h1, h2, h3, h4, h5⟩
          exact ⟨added, h1, h2, h3,
            fun x hx => ⟨(h4 x hx).1,
              List.mem_cons_of_mem _ (h4 x hx).2.1, (h4 x hx).2.2⟩, h5⟩
        · cases hw : wOk with
          | true =>
            have heq : buildPricesGo env s nd (d' :: ds) =
                buildPricesGo env
                  { s with
                    rawPartitions :=
                      assocInsert d' (stampDate d' rows) s.rawPartitions,
                    processedDays := s.processedDays ++ [d'] }
                  (nd ++ [d']) ds := by
              simp only [buildPricesGo, if_neg hmem, hout, hemp, hw,
                Bool.false_eq_true, if_false, if_true]
            rw [heq]
            rcases ih { s with
                rawPartitions :=
                  assocInsert d' (stampDate d' rows) s.rawPartitions,
                processedDays := s.processedDays ++ [d'] } (nd ++ [d']) with
              ⟨added, h1, h2, h3, h4, h5⟩
            refine ⟨d' :: added, ?_, ?_, ?_, ?_, h5⟩
            · rw [h1]; simp
            · rw [h2]; simp
            · intro hcon; exact absurd hcon (List.cons_ne_nil d' added)
            · intro x hx
              rcases List.mem_cons.1 hx with rfl | hx'
              · refine ⟨hmem, List.mem_cons_self _ _,
                  rows, hout ▸ (by rw [hw]), by
                    cases h : (stampDate x rows).isEmpty
                    · rfl
                    · exact absurd h hemp, ?_⟩
                rw [buildPricesGo_lookup_preserved env ds _ _ x
                  (List.mem_append_right _ (List.mem_singleton.2 rfl))]
                exact assocLookup_insert_self x _ _
              · rcases h4 x hx' with ⟨hx1, hx2, rows', hr1, hr2, hr3⟩
                refine ⟨?_, List.mem_cons_of_mem _ hx2, rows', hr1, hr2, hr3⟩
                intro hcon
                exact hx1 (List.mem_append_left _ hcon)
          | false =>
            rw [show buildPricesGo env s nd (d' :: ds) = (s, nd, true) from by
              simp only [buildPricesGo, if_neg hmem, hout, hemp, hw,
                Bool.false_eq_true, if_false]]
            exact ⟨[], by simp, by simp, fun _ => rfl, by simp,
              rfl, rfl, rfl, rfl, rfl⟩

/-- Replaying the harvesting loop over the same candidate dates, from any
state whose `processed_days` equal those left by a previous run over the
same environment, changes nothing and reports no new days. -/
theorem buildPricesGo_replay (env : Env) :
    ∀ (ds : List Date) (s : PipelineState) (nd : List Date)
      (t : PipelineState) (nd2 : List Date),
      t.processedDays = (buildPricesGo env s nd ds).1.processedDays →
      (buildPricesGo env t nd2 ds).1 = t ∧
      (buildPricesGo env t nd2 ds).2.1 = nd2 := by
  intro ds
  induction ds with
  | nil => intro s nd t nd2 _; exact ⟨rfl, rfl⟩
  | cons d' ds ih =>
    intro s nd t nd2 ht
    by_cases hmem : d' ∈ s.processedDays
    · rw [show buildPricesGo env s nd (d' :: ds) = buildPricesGo env s nd ds
        from by simp only [buildPricesGo, if_pos hmem]] at ht
      have hd't : d' ∈ t.processedDays := by
        rw [ht]
        rcases buildPricesGo_spec env ds s nd with ⟨added, _, h2, _⟩
        rw [h2]
        exact List.mem_append_left _ hmem
      rw [show buildPricesGo env t nd2 (d' :: ds) = buildPricesGo env t nd2 ds
        from by simp only [buildPricesGo, if_pos hd't]]
      exact ih s nd t nd2 ht
    · cases hout : env.outcome d' with
      | noArchive =>
        rw [show buildPricesGo env s nd (d' :: ds) = buildPricesGo env s nd ds
          from by simp only [buildPricesGo, if_neg hmem, hout]] at ht
        have hd't : d' ∉ t.processedDays := by
          rw [ht]
          rcases buildPricesGo_spec env ds s nd with ⟨added, _, h2, _, h4, _⟩
          rw [h2, List.mem_append]
          rintro (h | h)
          · exact hmem h
          · rcases (h4 d' h).2.2 with ⟨rows, hr, _⟩
            rw [hout] at hr
            exact absurd hr (by intro hcon; exact DayOutcome.noConfusion hcon)
        rw [show buildPricesGo env t nd2 (d' :: ds) =
            buildPricesGo env t nd2 ds from by
          simp only [buildPricesGo, if_neg hd't, hout]]
        exact ih s nd t nd2 ht
      | noExtract =>
        rw [show buildPricesGo env s nd (d' :: ds) = buildPricesGo env s nd ds
          from by simp only [buildPricesGo, if_neg hmem, hout]] at ht
        have hd't : d' ∉ t.processedDays := by
          rw [ht]
          rcases buildPricesGo_spec env ds s nd with ⟨added, _, h2, _, h4, _⟩
          rw [h2, List.mem_append]
          rintro (h | h)
          · exact hmem h
          · rcases (h4 d' h).2.2 with ⟨rows, hr, _⟩
            rw [hout] at hr
            exact absurd hr (by intro hcon; exact DayOutcome.noConfusion hcon)
        rw [show buildPricesGo env t nd2 (d' :: ds) =
            buildPricesGo env t nd2 ds from by
          simp only [buildPricesGo, if_neg hd't, hout]]
        exact ih s nd t nd2 ht
      | harvested rows wOk =>
        by_cases hemp : (stampDate d' rows).isEmpty = true
        · rw [show buildPricesGo env s nd (d' :: ds) =
              buildPricesGo env s nd ds from by
            simp only [buildPricesGo, if_neg hmem, hout, hemp, if_pos]] at ht
          have hd't : d' ∉ t.processedDays := by
            rw [ht]
            rcases buildPricesGo_spec env ds s nd with ⟨added, _, h2, _, h4, _⟩
            rw [h2, List.mem_append]
            rintro (h | h)
            · exact hmem h
            · rcases (h4 d' h).2.2 with ⟨rows', hr, hr2, _⟩
              rw [hout] at hr
              have : rows' = rows := (DayOutcome.harvested.injEq _ _ _ _ ▸ hr.symm).1
              rw [this] at hr2
              rw [hemp] at hr2
              exact Bool.true_eq_false.mp hr2
          rw [show buildPricesGo env t nd2 (d' :: ds) =
              buildPricesGo env t nd2 ds from by
            simp only [buildPricesGo, if_neg hd't, hout, hemp, if_pos]]
          exact ih s nd t nd2 ht
        · cases hw : wOk with
          | true =>
            have heq : buildPricesGo env s nd (d' :: ds) =
                buildPricesGo env
                  { s with
                    rawPartitions :=
                      assocInsert d' (stampDate d' rows) s.rawPartitions,
                    processedDays := s.processedDays ++ [d'] }
                  (nd ++ [d']) ds := by
              simp only [buildPricesGo, if_neg hmem, hout, hemp, hw,
                Bool.false_eq_true, if_false, if_true]
            rw [heq] at ht
            have hd't : d' ∈ t.processedDays := by
              rw [ht]
              rcases buildPricesGo_spec env ds
                { s with
                  rawPartitions :=
                    assocInsert d' (stampDate d' rows) s.rawPartitions,
                  processedDays := s.processedDays ++ [d'] } (nd ++ [d']) with
                ⟨added, _, h2, _⟩
              rw [h2]
              exact List.mem_append_left _
                (List.mem_append_right _ (List.mem_singleton.2 rfl))
            rw [show buildPricesGo env t nd2 (d' :: ds) =
                buildPricesGo env t nd2 ds from by
              simp only [buildPricesGo, if_pos hd't]]
            exact ih _ _ t nd2 ht
          | false =>
            rw [show buildPricesGo env s nd (d' :: ds) = (s, nd, true) from by
              simp only [buildPricesGo, if_neg hmem, hout, hemp, hw,
                Bool.false_eq_true, if_false]] at ht
            have hd't : d' ∉ t.processedDays := by
              rw [ht]; exact hmem
            rw [show buildPricesGo env t nd2 (d' :: ds) = (t, nd2, true)
              from by
              simp only [buildPricesGo, if_neg hd't, hout, hemp, hw,
                Bool.false_eq_true, if_false]]
            exact ⟨rfl, rfl⟩

/-! ### The later stages never touch `processed_days.txt` or the raw store
they would need to re-trigger harvesting -/

theorem fetchLoop_preserves (env : Env) (ce : Bool) :
    ∀ (gids : List String) (s : PipelineState),
      (fetchLoop env ce gids s).1.processedDays = s.processedDays ∧
      (fetchLoop env ce gids s).1.rawPartitions = s.rawPartitions ∧
      (fetchLoop env ce gids s).1.enrichedPartitions =
        s.enrichedPartitions ∧
      (fetchLoop env ce gids s).1.groupsCache = s.groupsCache ∧
      (fetchLoop env ce gids s).1.productsCache = s.productsCache ∧
      (fetchLoop env ce gids s).1.rollup = s.rollup := by
  intro gids
  induction gids with
  | nil => intro s; exact ⟨rfl, rfl, rfl, rfl, rfl, rfl⟩
  | cons gid rest ih =>
    intro s
    simp only [fetchLoop]
    split
    · exact ih s
    · split
      · exact ih s
      · split
        · exact ih s
        · exact ih { s with
            processedProducts := s.processedProducts ++ [gid] }

theorem buildProductsAndGroups_preserves (env : Env) (s : PipelineState) :
    (buildProductsAndGroups env s).1.processedDays = s.processedDays ∧
    (buildProductsAndGroups env s).1.rawPartitions = s.rawPartitions ∧
    (buildProductsAndGroups env s).1.enrichedPartitions =
      s.enrichedPartitions ∧
    (buildProductsAndGroups env s).1.rollup = s.rollup := by
  unfold buildProductsAndGroups
  cases hgc : s.groupsCache with
  | some g =>
    simp only []
    split
    · exact ⟨(fetchLoop_preserves env _ _ s).1,
        (fetchLoop_preserves env _ _ s).2.1,
        (fetchLoop_preserves env _ _ s).2.2.1,
        (fetchLoop_preserves env _ _ s).2.2.2.2.2⟩
    · exact ⟨(fetchLoop_preserves env _ _ s).1,
        (fetchLoop_preserves env _ _ s).2.1,
        (fetchLoop_preserves env _ _ s).2.2.1,
        (fetchLoop_preserves env _ _ s).2.2.2.2.2⟩
  | none =>
    simp only []
    split
    · exact ⟨(fetchLoop_preserves env _ _ _).1,
        (fetchLoop_preserves env _ _ _).2.1,
        (fetchLoop_preserves env _ _ _).2.2.1,
        (fetchLoop_preserves env _ _ _).2.2.2.2.2⟩
    · exact ⟨(fetchLoop_preserves env _ _ _).1,
        (fetchLoop_preserves env _ _ _).2.1,
        (fetchLoop_preserves env _ _ _).2.2.1,
        (fetchLoop_preserves env _ _ _).2.2.2.2.2⟩

theorem mergeNewDays_preserves (prods : List ProductRow)
    (groups : List GroupRow) :
    ∀ (days : List Date) (s : PipelineState),
      (mergeNewDays prods groups s days).1.processedDays =
        s.processedDays ∧
      (mergeNewDays prods groups s days).1.rawPartitions =
        s.rawPartitions ∧
      (mergeNewDays prods groups s days).1.groupsCache = s.groupsCache ∧
      (mergeNewDays prods groups s days).1.productsCache =
        s.productsCache ∧
      (mergeNewDays prods groups s days).1.rollup = s.rollup ∧
      (mergeNewDays prods groups s days).1.processedProducts =
        s.processedProducts := by
  intro days
  induction days with
  | nil => intro s; exact ⟨rfl, rfl, rfl, rfl, rfl, rfl⟩
  | cons day rest ih =>
    intro s
    simp only [mergeNewDays]
    split
    · exact ⟨rfl, rfl, rfl, rfl, rfl, rfl⟩
    · exact ih _

theorem buildFullFile_preserves {s s' : PipelineState}
    (h : buildFullFile s = some s') :
    s'.processedDays = s.processedDays ∧
    s'.rawPartitions = s.rawPartitions ∧
    s'.enrichedPartitions = s.enrichedPartitions ∧
    s'.groupsCache = s.groupsCache ∧
    s'.productsCache = s.productsCache ∧
    s'.processedProducts = s.processedProducts := by
  unfold buildFullFile at h
  cases hr : s.rollup with
  | some old =>
    rw [hr] at h
    simp only [] at h
    split at h
    · cases h
      exact ⟨rfl, rfl, rfl, rfl, rfl, rfl⟩
    · split at h
      · cases h
      · cases h
        exact ⟨rfl, rfl, rfl, rfl, rfl, rfl⟩
  | none =>
    rw [hr] at h
    simp only [] at h
    split at h
    · cases h
    · cases h
      exact ⟨rfl, rfl, rfl, rfl, rfl, rfl⟩

theorem pruneOldDailyPrices_preserves (s : PipelineState) (k : Nat) :
    (pruneOldDailyPrices s k).processedDays = s.processedDays ∧
    (pruneOldDailyPrices s k).enrichedPartitions = s.enrichedPartitions ∧
    (pruneOldDailyPrices s k).groupsCache = s.groupsCache ∧
    (pruneOldDailyPrices s k).productsCache = s.productsCache ∧
    (pruneOldDailyPrices s k).rollup = s.rollup ∧
    (pruneOldDailyPrices s k).processedProducts = s.processedProducts := by
  unfold pruneOldDailyPrices
  split
  · exact ⟨rfl, rfl, rfl, rfl, rfl, rfl⟩
  · exact ⟨rfl, rfl, rfl, rfl, rfl, rfl⟩

theorem mainFinalStages_processedDays (cfg : Config) (s3 : PipelineState) :
    (mainFinalStages cfg s3).processedDays = s3.processedDays := by
  unfold mainFinalStages
  cases hff : cfg.fullFile with
  | false =>
    simp only [hff, Bool.false_eq_true, if_false]
    exact (pruneOldDailyPrices_preserves s3 7).1
  | true =>
    simp only [hff, if_true]
    cases hb : buildFullFile s3 with
    | none => rfl
    | some s4 =>
      simp only []
      rw [(pruneOldDailyPrices_preserves s4 7).1]
      exact (buildFullFile_preserves hb).1

theorem mainRun_processedDays (env : Env) (cfg : Config)
    (s : PipelineState) :
    (mainRun env cfg s).processedDays =
      (buildPrices env cfg.startDate cfg.endDate cfg.interval s).1.processedDays := by
  simp only [mainRun]
  split
  · rfl
  · split
    · rfl
    · split
      · unfold mainMergeStage
        rw [(mergeNewDays_preserves _ _ _ _).1]
        exact (buildProductsAndGroups_preserves env _).1
      · rw [mainFinalStages_processedDays]
        unfold mainMergeStage
        rw [(mergeNewDays_preserves _ _ _ _).1]
        exact (buildProductsAndGroups_preserves env _).1

/-! ### Lemmas about the merge stage (left joins and dedup) -/

theorem length_le_length_flatMap {α β : Type} (g : α → List β)
    (l : List α) (h : ∀ a ∈ l, 1 ≤ (g a).length) :
    l.length ≤ (l.flatMap g).length := by
  induction l with
  | nil => simp
  | cons a l ih =>
    simp only [List.flatMap_cons, List.length_append, List.length_cons]
    have h1 := h a (List.mem_cons_self _ _)
    have h2 := ih (fun a ha => h a (List.mem_cons_of_mem _ ha))
    omega

theorem length_facts_le_leftJoinProducts (facts : List FactRow)
    (prods : List ProductRow) :
    facts.length ≤ (leftJoinProducts facts prods).length := by
  unfold leftJoinProducts
  refine length_le_length_flatMap _ facts (fun f _ => ?_)
  cases h : prods.filter
      (fun p => p.groupid == f.groupid && p.product_id == f.product_id) with
  | nil => simp [h]
  | cons m ms => simp [h]

theorem length_le_leftJoinGroups (xs : List (FactRow × Option ProductRow))
    (groups : List GroupRow) :
    xs.length ≤ (leftJoinGroups xs groups).length := by
  unfold leftJoinGroups
  refine length_le_length_flatMap _ xs (fun fp _ => ?_)
  cases h : groups.filter (fun g => g.groupid == fp.1.groupid) with
  | nil => simp [h]
  | cons m ms => simp [h]

theorem length_facts_le_mergeDayPre (facts : List FactRow)
    (prods : List ProductRow) (groups : List GroupRow) :
    facts.length ≤ (mergeDayPre facts prods groups).length :=
  (length_facts_le_leftJoinProducts facts prods).trans
    (length_le_leftJoinGroups _ groups)

theorem exists_pair_mem_leftJoinProducts {facts : List FactRow}
    {f : FactRow} (hf : f ∈ facts) (prods : List ProductRow) :
    ∃ pr, (f, pr) ∈ leftJoinProducts facts prods := by
  unfold leftJoinProducts
  cases h : prods.filter
      (fun p => p.groupid == f.groupid && p.product_id == f.product_id) with
  | nil =>
    exact ⟨none, List.mem_flatMap.2 ⟨f, hf, by simp [h]⟩⟩
  | cons m ms =>
    refine ⟨some m, List.mem_flatMap.2 ⟨f, hf, ?_⟩⟩
    simp only [h]
    exact List.mem_map_of_mem _ (List.mem_cons_self _ _)

theorem exists_mem_leftJoinGroups {xs : List (FactRow × Option ProductRow)}
    {f : FactRow} {pr : Option ProductRow} (hx : (f, pr) ∈ xs)
    (groups : List GroupRow) :
    ∃ gr, (⟨f, pr, gr⟩ : EnrichedRow) ∈ leftJoinGroups xs groups := by
  unfold leftJoinGroups
  cases h : groups.filter (fun g => g.groupid == f.groupid) with
  | nil =>
    exact ⟨none, List.mem_flatMap.2 ⟨(f, pr), hx, by simp [h]⟩⟩
  | cons m ms =>
    refine ⟨some m, List.mem_flatMap.2 ⟨(f, pr), hx, ?_⟩⟩
    simp only [h]
    exact List.mem_map_of_mem _ (List.mem_cons_self _ _)

theorem exists_key_mem_mergeDay {facts : List FactRow} {f : FactRow}
    (hf : f ∈ facts) (prods : List ProductRow) (groups : List GroupRow) :
    ∃ e ∈ mergeDay facts prods groups, keyE e = keyF f := by
  rcases exists_pair_mem_leftJoinProducts hf prods with ⟨pr, hpr⟩
  rcases exists_mem_leftJoinGroups hpr groups with ⟨gr, hgr⟩
  exact exists_key_mem_dedupByAux (by simp) ⟨⟨f, pr, gr⟩, hgr, rfl⟩

theorem unmatched_fact_mem_mergeDayPre {facts : List FactRow} {f : FactRow}
    (hf : f ∈ facts) {prods : List ProductRow} {groups : List GroupRow}
    (hp : ∀ p ∈ prods,
      ¬(p.groupid = f.groupid ∧ p.product_id = f.product_id))
    (hg : ∀ g ∈ groups, g.groupid ≠ f.groupid) :
    (⟨f, none, none⟩ : EnrichedRow) ∈ mergeDayPre facts prods groups := by
  have hfp : prods.filter
      (fun p => p.groupid == f.groupid && p.product_id == f.product_id) = [] := by
    rw [List.filter_eq_nil_iff]
    intro p hmem
    simp only [Bool.and_eq_true, beq_iff_eq]
    exact fun hcon => hp p hmem ⟨hcon.1, hcon.2⟩
  have hfg : groups.filter (fun g => g.groupid == f.groupid) = [] := by
    rw [List.filter_eq_nil_iff]
    intro g hmem
    simp only [beq_iff_eq]
    exact hg g hmem
  have h1 : (f, (none : Option ProductRow)) ∈ leftJoinProducts facts prods := by
    unfold leftJoinProducts
    exact List.mem_flatMap.2 ⟨f, hf, by simp [hfp]⟩
  unfold mergeDayPre leftJoinGroups
  exact List.mem_flatMap.2 ⟨(f, none), h1, by simp [hfg]⟩

/-! ### Lemmas about the rollup -/

theorem pairwise_keyNe_flatMap (parts : List (Date × List EnrichedRow))
    (hnd : (parts.map (fun p => p.1)).Nodup)
    (hwf : ∀ p ∈ parts, p.2.Pairwise (fun a b => keyE a ≠ keyE b) ∧
      ∀ r ∈ p.2, r.fact.date = p.1) :
    (parts.flatMap (fun p => p.2)).Pairwise
      (fun a b => keyE a ≠ keyE b) := by
  induction parts with
  | nil => simp
  | cons p parts ih =>
    simp only [List.flatMap_cons]
    rw [List.pairwise_append]
    rw [List.map_cons] at hnd
    have hnd' := List.nodup_cons.1 hnd
    refine ⟨(hwf p (List.mem_cons_self _ _)).1,
      ih hnd'.2 (fun q hq => hwf q (List.mem_cons_of_mem _ hq)), ?_⟩
    intro a ha b hb
    rcases List.mem_flatMap.1 hb with ⟨q, hq, hbq⟩
    have hda : a.fact.date = p.1 := (hwf p (List.mem_cons_self _ _)).2 a ha
    have hdb : b.fact.date = q.1 :=
      (hwf q (List.mem_cons_of_mem _ hq)).2 b hbq
    intro hkey
    have hdd : a.fact.date = b.fact.date := congrArg (fun t => t.2.1) hkey
    rw [hda, hdb] at hdd
    exact hnd'.1 (hdd ▸ List.mem_map_of_mem _ hq)

theorem dateSet_const {rows : List EnrichedRow} {d : Date}
    (hne : rows ≠ []) (hd : ∀ r ∈ rows, r.fact.date = d) :
    dateSet rows = {d} := by
  unfold dateSet
  ext x
  simp only [List.mem_toFinset, List.mem_map, Finset.mem_singleton]
  constructor
  · rintro ⟨r, hr, rfl⟩
    exact hd r hr
  · rintro rfl
    rcases List.exists_mem_of_ne_nil rows hne with ⟨r, hr⟩
    exact ⟨r, hr, hd r hr⟩

theorem dateSet_append (l1 l2 : List EnrichedRow) :
    dateSet (l1 ++ l2) = dateSet l1 ∪ dateSet l2 := by
  unfold dateSet
  rw [List.map_append, List.toFinset_append]

theorem dateSet_flatMap (parts : List (Date × List EnrichedRow))
    (hne : ∀ p ∈ parts, p.2 ≠ [])
    (hd : ∀ p ∈ parts, ∀ r ∈ p.2, r.fact.date = p.1) :
    dateSet (parts.flatMap (fun p => p.2)) =
      (parts.map (fun p => p.1)).toFinset := by
  induction parts with
  | nil => simp [dateSet]
  | cons p parts ih =>
    simp only [List.flatMap_cons, List.map_cons, List.toFinset_cons]
    rw [dateSet_append,
      dateSet_const (hne p (List.mem_cons_self _ _))
        (hd p (List.mem_cons_self _ _)),
      ih (fun q hq => hne q (List.mem_cons_of_mem _ hq))
        (fun q hq => hd q (List.mem_cons_of_mem _ hq))]
    exact (Finset.insert_eq _ _).symm

/-! ### Lemmas about retention pruning -/

theorem eq_of_fst_eq_of_nodupKeys {l : List (Date × List FactRow)}
    (hnd : (l.map (fun p => p.1)).Nodup) {p q : Date × List FactRow}
    (hp : p ∈ l) (hq : q ∈ l) (h1 : p.1 = q.1) : p = q :=
  List.inj_on_of_nodup_map hnd hp hq h1

/-! ### Lemmas about the attack-attribute flattening -/

theorem dictGet_cons (x : String × String) (l : List (String × String))
    (c : String) :
    dictGet (x :: l) c =
      match dictGet l c with
      | some v => some v
      | none => if x.1 == c then some x.2 else none := by
  unfold dictGet
  rw [List.reverse_cons, List.find?_append]
  cases h : l.reverse.find? (fun kv => kv.1 == c) with
  | some q => simp
  | none =>
    simp only [Option.or, Option.map_none]
    cases hx : (x.1 == c) with
    | true => simp [List.find?, hx]
    | false => simp [List.find?, hx]

theorem dictGet_eq_none {l : List (String × String)} {c : String}
    (h : ∀ kv ∈ l, kv.1 ≠ c) : dictGet l c = none := by
  unfold dictGet
  rw [show l.reverse.find? (fun kv => kv.1 == c) = none from ?_]
  · rfl
  · rw [List.find?_eq_none]
    intro kv hkv
    simp only [beq_iff_eq]
    exact h kv (List.mem_reverse.1 hkv)

theorem strBegins_attack_concat (x : String) :
    strBegins ("attack_" ++ x) "attack" = true := by
  unfold strBegins
  rw [String.data_append,
    show "attack_".data = ['a','t','t','a','c','k','_'] from rfl,
    show "attack".data = ['a','t','t','a','c','k'] from rfl]
  simp [listBegins]

theorem strBegins_presale_concat (x : String) :
    strBegins ("presale_" ++ x) "attack" = false := by
  unfold strBegins
  rw [String.data_append,
    show "presale_".data = ['p','r','e','s','a','l','e','_'] from rfl,
    show "attack".data = ['a','t','t','a','c','k'] from rfl]
  simp [listBegins]

/-- Every entry of the processed `extendedData` either has a
non-attack-looking key, or is one of the two renamed slots
`attack_<m>` with `seen < m ≤ 2`. -/
theorem flattenExt_member_keys :
    ∀ (ext : List (String × String)) (seen : Nat)
      (kv : String × String), kv ∈ flattenExt seen ext →
      strBegins kv.1 "attack" = false ∨
      ∃ m, kv.1 = "attack_" ++ toString m ∧ seen < m ∧ m ≤ 2 := by
  intro ext
  induction ext with
  | nil => intro seen kv h; simp [flattenExt] at h
  | cons e rest ih =>
    intro seen kv h
    rw [show flattenExt seen (e :: rest) =
        (if e.1 = "" then flattenExt seen rest
         else if strBegins e.1 "attack" then
           if seen + 1 > 2 then flattenExt (seen + 1) rest
           else ("attack_" ++ toString (seen + 1), e.2) ::
             flattenExt (seen + 1) rest
         else (e.1, e.2) :: flattenExt seen rest) from by
      cases e; rfl] at h
    by_cases he : e.1 = ""
    · rw [if_pos he] at h
      exact ih seen kv h
    · rw [if_neg he] at h
      by_cases ha : strBegins e.1 "attack" = true
      · rw [if_pos ha] at h
        by_cases hs : seen + 1 > 2
        · rw [if_pos hs] at h
          rcases ih (seen + 1) kv h with h1 | ⟨m, hm1, hm2, hm3⟩
          · exact Or.inl h1
          · exact Or.inr ⟨m, hm1, by omega, hm3⟩
        · rw [if_neg hs] at h
          rcases List.mem_cons.1 h with rfl | h'
          · exact Or.inr ⟨seen + 1, rfl, by omega, by omega⟩
          · rcases ih (seen + 1) kv h' with h1 | ⟨m, hm1, hm2, hm3⟩
            · exact Or.inl h1
            · exact Or.inr ⟨m, hm1, by omega, hm3⟩
      · rw [if_neg ha] at h
        rcases List.mem_cons.1 h with rfl | h'
        · exact Or.inl (by
            cases hb : strBegins e.1 "attack"
            · rfl
            · exact absurd hb ha)
        · exact ih seen kv h'

/-- The positive part of the attack flattening: the `j`-th attack entry
(0-based) lands in column `attack_<seen+j+1>` with its original value,
as long as that slot index is at most 2. -/
theorem flattenExt_attack_value :
    ∀ (ext : List (String × String)) (seen j : Nat)
      (aj : String × String),
      (attacksOf ext)[j]? = some aj → seen + j + 1 ≤ 2 →
      dictGet (flattenExt seen ext)
        ("attack_" ++ toString (seen + j + 1)) = some aj.2 := by
  intro ext
  induction ext with
  | nil => intro seen j aj h _; simp [attacksOf] at h
  | cons e rest ih =>
    intro seen j aj hj hle
    rw [show flattenExt seen (e :: rest) =
        (if e.1 = "" then flattenExt seen rest
         else if strBegins e.1 "attack" then
           if seen + 1 > 2 then flattenExt (seen + 1) rest
           else ("attack_" ++ toString (seen + 1), e.2) ::
             flattenExt (seen + 1) rest
         else (e.1, e.2) :: flattenExt seen rest) from by
      cases e; rfl]
    by_cases he : e.1 = ""
    · rw [if_pos he]
      have hatt : attacksOf (e :: rest) = attacksOf rest := by
        unfold attacksOf
        rw [List.filter_cons]
        rw [show isAttackKey e.1 = false from by
          unfold isAttackKey
          rw [he]
          rfl]
        rfl
      rw [hatt] at hj
      exact ih seen j aj hj hle
    · rw [if_neg he]
      by_cases ha : strBegins e.1 "attack" = true
      · have hatt : attacksOf (e :: rest) = e :: attacksOf rest := by
          unfold attacksOf
          rw [List.filter_cons]
          rw [show isAttackKey e.1 = true from by
            unfold isAttackKey
            rw [ha, Bool.and_true, Bool.not_eq_true']
            exact beq_false_of_ne he]
          rfl
        rw [if_pos ha]
        have hs : ¬(seen + 1 > 2) := by omega
        rw [if_neg hs]
        rw [hatt] at hj
        cases j with
        | zero =>
          simp only [List.getElem?_cons_zero, Option.some.injEq] at hj
          subst hj
          rw [dictGet_cons]
          have hnone : dictGet (flattenExt (seen + 1) rest)
              ("attack_" ++ toString (seen + 0 + 1)) = none := by
            apply dictGet_eq_none
            intro kv hkv hcon
            rcases flattenExt_member_keys rest (seen + 1) kv hkv with
              h1 | ⟨m, hm1, hm2, hm3⟩
            · rw [hcon] at h1
              rw [strBegins_attack_concat] at h1
              exact Bool.true_eq_false.mp h1
            · rw [hm1] at hcon
              have hseen0 : seen = 0 := by omega
              have hm2' : m = 2 := by omega
              rw [hseen0] at hcon
              rw [hm2'] at hcon
              exact absurd hcon (by decide)
          rw [hnone]
          have : seen + 0 + 1 = seen + 1 := by omega
          rw [this]
          rw [if_pos (beq_self_eq_true _)]
        | succ j' =>
          simp only [List.getElem?_cons_succ] at hj
          have hle' : (seen + 1) + j' + 1 ≤ 2 := by omega
          have := ih (seen + 1) j' aj hj hle'
          rw [dictGet_cons]
          have harith : seen + (j' + 1) + 1 = (seen + 1) + j' + 1 := by omega
          rw [harith, this]
      · rw [if_neg ha]
        have hatt : attacksOf (e :: rest) = attacksOf rest := by
          unfold attacksOf
          rw [List.filter_cons]
          rw [show isAttackKey e.1 = false from by
            unfold isAttackKey
            cases hb : strBegins e.1 "attack"
            · rw [Bool.and_false]
            · exact absurd hb ha]
          rfl
        rw [hatt] at hj
        rw [dictGet_cons, ih seen j aj hj hle]

theorem dictGet_append (xs ys : List (String × String)) (c : String) :
    dictGet (xs ++ ys) c =
      match dictGet ys c with
      | some v => some v
      | none => dictGet xs c := by
  unfold dictGet
  rw [List.reverse_append, List.find?_append]
  cases h : ys.reverse.find? (fun kv => kv.1 == c) with
  | some q => simp
  | none => simp [h]

/-! ## The claims -/

/-- Claim C1: dedup invariant.  (a) Every enriched day partition written
by the merge stage is unique on (product_id, date, sub_type_name).
(b) The rollup written by a forced full rebuild over a well-formed
partition store (distinct partition keys, per-partition key-uniqueness,
rows dated by their partition — the state of the store as the pipeline
itself writes it) is key-unique, even though `build_full_file` itself
performs no dedup.  (c) A rollup written by the incremental append's
dedup path is key-unique. -/
theorem C1_dedup_invariant :
    (∀ (facts : List FactRow) (prods : List ProductRow)
        (groups : List GroupRow),
      (mergeDay facts prods groups).Pairwise
        (fun a b => keyE a ≠ keyE b)) ∧
    (∀ (s s' : PipelineState) (rows : List EnrichedRow),
      partitionsWellFormed s → rebuildForced s →
      buildFullFile s = some s' → s'.rollup = some rows →
      rows.Pairwise (fun a b => keyE a ≠ keyE b)) ∧
    (∀ (s s' : PipelineState) (nd : List Date)
        (old rows : List EnrichedRow),
      s.rollup = some old → appendToFullFile s nd = some s' →
      s'.rollup = some rows → rows ≠ old →
      rows.Pairwise (fun a b => keyE a ≠ keyE b)) := by
  refine ⟨fun facts prods groups => pairwise_dedupByAux keyE [] _, ?_, ?_⟩
  · intro s s' rows hwf htrig h hrows
    have hrb : (if s.enrichedPartitions.isEmpty then none
        else some { s with
          rollup := some (s.enrichedPartitions.flatMap (fun p => p.2)) }) =
          some s' →
        rows.Pairwise (fun a b => keyE a ≠ keyE b) := by
      intro h2
      by_cases hemp : s.enrichedPartitions.isEmpty = true
      · rw [if_pos hemp] at h2
        cases h2
      · rw [if_neg hemp] at h2
        injection h2 with h2
        subst h2
        simp only [] at hrows
        injection hrows with h3
        subst h3
        exact pairwise_keyNe_flatMap _ hwf.1 hwf.2
    unfold buildFullFile at h
    rcases htrig with hnone | ⟨old, hsome, hne⟩
    · rw [hnone] at h
      exact hrb h
    · rw [hsome] at h
      simp only [] at h
      rw [if_neg hne] at h
      exact hrb h
  · intro s s' nd old rows hold happ hrows hne
    unfold appendToFullFile at happ
    rw [hold] at happ
    simp only [] at happ
    split at happ
    · injection happ with h
      subst h
      rw [hold] at hrows
      injection hrows with h2
      exact absurd h2.symm hne
    · injection happ with h
      subst h
      simp only [] at hrows
      injection hrows with h2
      subst h2
      exact pairwise_dedupByAux keyE [] _

/-- Witness for C1, at concrete enriched partitions, a concrete rebuilt
rollup, and a concrete appended rollup. -/
theorem C1_dedup_invariant_witness :
    (mergeDay [sampleFact] [] []).Pairwise (fun a b => keyE a ≠ keyE b) ∧
    ([sampleEnriched] : List EnrichedRow).Pairwise
      (fun a b => keyE a ≠ keyE b) ∧
    (dedupByAux keyE []
      ([sampleEnriched] ++
        (([1] : List Date).filterMap
          (fun day => assocLookup day divergedState.enrichedPartitions)).flatMap
          id)).Pairwise (fun a b => keyE a ≠ keyE b) :=
  ⟨C1_dedup_invariant.1 [sampleFact] [] [],
   C1_dedup_invariant.2.1
     { emptyState with enrichedPartitions := [(0, [sampleEnriched])] }
     { emptyState with
       enrichedPartitions := [(0, [sampleEnriched])],
       rollup := some [sampleEnriched] }
     [sampleEnriched] (by unfold partitionsWellFormed; decide)
     (Or.inl rfl) (by decide) rfl,
   C1_dedup_invariant.2.2 divergedState
     { divergedState with
       rollup := some (dedupByAux keyE []
         ([sampleEnriched] ++
           (([1] : List Date).filterMap
             (fun day => assocLookup day divergedState.enrichedPartitions)).flatMap
           id)) }
     [1] [sampleEnriched] _ rfl (by decide) rfl (by decide)⟩

/-- Claim C3: left-join completeness.  The joined frame (pre-dedup) has
at least as many rows as the raw partition; every raw row has a row with
its (product_id, date, sub_type_name) key in the final enriched
partition; and a fact row with no matching product row and no matching
group row survives the joins with null dimension fields. -/
theorem C3_left_join_completeness (facts : List FactRow)
    (prods : List ProductRow) (groups : List GroupRow) :
    facts.length ≤ (mergeDayPre facts prods groups).length ∧
    (∀ f ∈ facts, ∃ e ∈ mergeDay facts prods groups, keyE e = keyF f) ∧
    (∀ f ∈ facts,
      (∀ p ∈ prods,
        ¬(p.groupid = f.groupid ∧ p.product_id = f.product_id)) →
      (∀ g ∈ groups, g.groupid ≠ f.groupid) →
      (⟨f, none, none⟩ : EnrichedRow) ∈ mergeDayPre facts prods groups) :=
  ⟨length_facts_le_mergeDayPre facts prods groups,
   fun _ hf => exists_key_mem_mergeDay hf prods groups,
   fun _ hf hp hg => unmatched_fact_mem_mergeDayPre hf hp hg⟩

/-- Witness for C3 at a concrete raw partition with empty dimension
tables: the row survives with null dimensions. -/
theorem C3_left_join_completeness_witness :
    (∃ e ∈ mergeDay [sampleFact] [] [], keyE e = keyF sampleFact) ∧
    (⟨sampleFact, none, none⟩ : EnrichedRow) ∈ mergeDayPre [sampleFact] [] [] :=
  ⟨(C3_left_join_completeness [sampleFact] [] []).2.1 sampleFact
      (List.mem_singleton.2 rfl),
   (C3_left_join_completeness [sampleFact] [] []).2.2 sampleFact
      (List.mem_singleton.2 rfl)
      (fun p hp => absurd hp (List.not_mem_nil p))
      (fun g hg => absurd hg (List.not_mem_nil g))⟩

/-- Claim C2: in every run of the harvesting loop, `processed_days` grows
by exactly the reported new days; every newly marked date had its raw day
partition written (with the successfully harvested, nonempty, stamped
frame) before being marked; and a visited date on which no partition
write succeeds — archive missing, extraction failed, empty frame, or
write failure — is never marked processed. -/
theorem C2_mark_only_after_write (env : Env) (start endd : Date)
    (step : Nat) (s : PipelineState) (hstep : 1 ≤ step) :
    ((buildPrices env start endd step s).1.processedDays =
      s.processedDays ++ (buildPrices env start endd step s).2.1) ∧
    (∀ d ∈ (buildPrices env start endd step s).2.1,
      d ∉ s.processedDays ∧
      ∃ rows, env.outcome d = .harvested rows true ∧
        (stampDate d rows).isEmpty = false ∧
        assocLookup d (buildPrices env start endd step s).1.rawPartitions =
          some (stampDate d rows)) ∧
    (∀ d ∈ candidateDates start endd step, outcomeFails env d = true →
      d ∉ (buildPrices env start endd step s).2.1) := by
  rcases buildPricesGo_spec env (candidateDates start endd step) s [] with
    ⟨added, h1, h2, _, h4, _⟩
  have hnd : (buildPrices env start endd step s).2.1 = added := by
    rw [show (buildPrices env start endd step s).2.1 =
      (buildPricesGo env s [] (candidateDates start endd step)).2.1 from rfl,
      h1, List.nil_append]
  refine ⟨?_, ?_, ?_⟩
  · rw [hnd]
    exact h2
  · intro d hd
    rw [hnd] at hd
    exact ⟨(h4 d hd).1, (h4 d hd).2.2⟩
  · intro d _ hfail
    rw [hnd]
    intro hd
    rcases (h4 d hd).2.2 with ⟨rows, hr1, hr2, _⟩
    unfold outcomeFails at hfail
    rw [hr1] at hfail
    simp [hr2] at hfail

/-- Witness for C2: over days 0..1 with data only on day 0, day 0 is
marked with its partition written, and day 1 (archive missing) is not. -/
theorem C2_mark_only_after_write_witness :
    ((buildPrices sampleEnv 0 1 1 emptyState).1.processedDays =
      emptyState.processedDays ++
        (buildPrices sampleEnv 0 1 1 emptyState).2.1) ∧
    (0 ∉ emptyState.processedDays ∧
      ∃ rows, sampleEnv.outcome 0 = .harvested rows true ∧
        (stampDate 0 rows).isEmpty = false ∧
        assocLookup 0
          (buildPrices sampleEnv 0 1 1 emptyState).1.rawPartitions =
          some (stampDate 0 rows)) ∧
    1 ∉ (buildPrices sampleEnv 0 1 1 emptyState).2.1 :=
  ⟨(C2_mark_only_after_write sampleEnv 0 1 1 emptyState (by decide)).1,
   (C2_mark_only_after_write sampleEnv 0 1 1 emptyState (by decide)).2.1 0
     (by decide),
   (C2_mark_only_after_write sampleEnv 0 1 1 emptyState (by decide)).2.2 1
     (by decide) (by decide)⟩

/-- Claim C4: idempotence.  Running the whole pipeline a second time over
the same date range against the same remote source (the fixed `env` —
"no data beyond what the first run saw") leaves every raw and enriched
day partition, both dimension caches, the tracking files and the rollup
file exactly as the first run left them. -/
theorem C4_idempotent (env : Env) (cfg : Config) (s : PipelineState)
    (hstep : 1 ≤ cfg.interval) :
    mainRun env cfg (mainRun env cfg s) = mainRun env cfg s := by
  have hF : (mainRun env cfg s).processedDays =
      (buildPricesGo env s []
        (candidateDates cfg.startDate cfg.endDate cfg.interval)).1.processedDays :=
    mainRun_processedDays env cfg s
  have hreplay := buildPricesGo_replay env
    (candidateDates cfg.startDate cfg.endDate cfg.interval) s []
    (mainRun env cfg s) [] hF
  set F := mainRun env cfg s with hFdef
  have h1 : (buildPrices env cfg.startDate cfg.endDate cfg.interval F).1 =
      F := hreplay.1
  have h2 : (buildPrices env cfg.startDate cfg.endDate cfg.interval F).2.1 =
      [] := hreplay.2
  show mainRun env cfg F = F
  simp only [mainRun]
  by_cases hb :
      (buildPrices env cfg.startDate cfg.endDate cfg.interval F).2.2 = true
  · rw [if_pos hb]
    exact h1
  · rw [if_neg hb,
      if_pos (show (buildPrices env cfg.startDate cfg.endDate
        cfg.interval F).2.1.isEmpty = true from by rw [h2]; rfl)]
    exact h1

/-- Witness for C4 at a concrete environment and range. -/
theorem C4_idempotent_witness :
    mainRun sampleEnv ⟨0, 1, 1, true⟩
        (mainRun sampleEnv ⟨0, 1, 1, true⟩ emptyState) =
      mainRun sampleEnv ⟨0, 1, 1, true⟩ emptyState :=
  C4_idempotent sampleEnv ⟨0, 1, 1, true⟩ emptyState (by decide)

/-- Counterexample to C5 as stated: re-fetching an already cached product
row persists the duplicate, because `products_df.to_parquet` runs before
the `drop_duplicates` — which acts only on the returned in-memory frame.
The persisted cache is `[p, p]`, not the claimed dedup `[p]`. -/
theorem C5_counterexample :
    (buildProductsAndGroups sampleEnv dupCacheState).1.productsCache =
      some [sampleProduct, sampleProduct] ∧
    (buildProductsAndGroups sampleEnv dupCacheState).1.productsCache ≠
      some (dedupByAux id [] ([sampleProduct] ++ [sampleProduct])) := by
  constructor
  · decide
  · decide

/-- Claim C5 (amended): after a Dimension Builder run that fetched new
product rows, the persisted products cache equals the prior cache's rows
followed by the newly fetched rows with duplicates retained; the
keep-first dedup is applied only to the in-memory products table
returned to the merge stage. -/
theorem C5_amended (env : Env) (s : PipelineState)
    (groups : List GroupRow) (hg : s.groupsCache = some groups)
    (hne : (fetchLoop env s.productsCache.isSome
      (dedupByAux id [] (groups.map (fun g => g.groupid))) s).2 ≠ []) :
    (buildProductsAndGroups env s).1.productsCache =
      some (s.productsCache.getD [] ++
        (fetchLoop env s.productsCache.isSome
          (dedupByAux id [] (groups.map (fun g => g.groupid))) s).2) ∧
    (buildProductsAndGroups env s).2.2 =
      dedupByAux id [] (s.productsCache.getD [] ++
        (fetchLoop env s.productsCache.isSome
          (dedupByAux id [] (groups.map (fun g => g.groupid))) s).2) := by
  have hemp : ¬((fetchLoop env s.productsCache.isSome
      (dedupByAux id [] (groups.map (fun g => g.groupid))) s).2.isEmpty
        = true) := by
    simpa using hne
  unfold buildProductsAndGroups
  simp only [hg]
  rw [if_neg hemp]
  have hpc := (fetchLoop_preserves env s.productsCache.isSome
    (dedupByAux id [] (groups.map (fun g => g.groupid))) s).2.2.2.2.1
  rw [hpc]
  exact ⟨rfl, rfl⟩

/-- Witness for the amended C5 at a concrete fresh cache. -/
theorem C5_amended_witness :
    (buildProductsAndGroups sampleEnv gcacheState).1.productsCache =
      some (gcacheState.productsCache.getD [] ++
        (fetchLoop sampleEnv gcacheState.productsCache.isSome
          (dedupByAux id [] ([sampleGroup].map (fun g => g.groupid)))
          gcacheState).2) ∧
    (buildProductsAndGroups sampleEnv gcacheState).2.2 =
      dedupByAux id [] (gcacheState.productsCache.getD [] ++
        (fetchLoop sampleEnv gcacheState.productsCache.isSome
          (dedupByAux id [] ([sampleGroup].map (fun g => g.groupid)))
          gcacheState).2) :=
  C5_amended sampleEnv gcacheState [sampleGroup] rfl (by decide)

/-- Counterexample to C6 as stated: with no enriched partition on disk
and a stale rollup present, the "otherwise" branch does not overwrite the
rollup — `pd.concat` of an empty frame list raises and the run aborts. -/
theorem C6_counterexample : buildFullFile staleRollupState = none := by
  decide

/-- Claim C6 (amended): over a partition store whose enriched partitions
are nonempty and dated by their directory key (the state the pipeline
writes): if a rollup exists and its distinct dates equal the partition
dates on disk, the rollup (and everything else) is left unchanged;
otherwise — provided at least one enriched partition exists — every
partition is concatenated into the overwritten rollup, whose distinct
dates then equal the partition dates on disk.  (With no partitions and a
forced rebuild, the concat raises and no rollup is written.) -/
theorem C6_amended (s : PipelineState)
    (hwf : ∀ p ∈ s.enrichedPartitions,
      p.2 ≠ [] ∧ ∀ r ∈ p.2, r.fact.date = p.1) :
    (∀ old, s.rollup = some old → dateSet old = partKeySet s →
      buildFullFile s = some s) ∧
    (rebuildForced s → s.enrichedPartitions ≠ [] →
      buildFullFile s = some { s with
        rollup := some (s.enrichedPartitions.flatMap (fun p => p.2)) } ∧
      dateSet (s.enrichedPartitions.flatMap (fun p => p.2)) =
        partKeySet s) := by
  constructor
  · intro old hold hds
    unfold buildFullFile
    rw [hold]
    simp only []
    rw [if_pos hds]
  · intro htrig hne
    have hemp : ¬(s.enrichedPartitions.isEmpty = true) := by
      simpa using hne
    constructor
    · unfold buildFullFile
      rcases htrig with hnone | ⟨old, hsome, hdne⟩
      · rw [hnone]
        simp only []
        rw [if_neg hemp]
      · rw [hsome]
        simp only []
        rw [if_neg hdne, if_neg hemp]
    · exact dateSet_flatMap _ (fun p hp => (hwf p hp).1)
        (fun p hp => (hwf p hp).2)

/-- Witness for the amended C6: a matching rollup is a no-op; a missing
rollup is rebuilt from the one partition on disk. -/
theorem C6_amended_witness :
    buildFullFile freshPartState2 = some freshPartState2 ∧
    buildFullFile freshPartState =
      some { freshPartState with
        rollup :=
          some (freshPartState.enrichedPartitions.flatMap (fun p => p.2)) } :=
  ⟨(C6_amended freshPartState2 (by decide)).1 [sampleEnriched] rfl
     (by decide),
   ((C6_amended freshPartState (by decide)).2 (Or.inl rfl)
     (by decide)).1⟩

/-- Claim C7: incremental rollup append.  With no rollup file it falls
back to full rebuild.  Otherwise — for a key-unique prior rollup, which
is what the pipeline writes — when at least one new day's partition file
exists, the new rollup is the prior rollup concatenated with exactly the
new days' partitions, deduplicated keep-first on
(product_id, date, sub_type_name): every prior row is kept, every new
row's key is present, and the row count is the prior count plus the
number of newly added unique rows. -/
theorem C7_incremental_append :
    (∀ (s : PipelineState) (nd : List Date), s.rollup = none →
      appendToFullFile s nd = buildFullFile s) ∧
    (∀ (s : PipelineState) (nd : List Date) (old : List EnrichedRow),
      s.rollup = some old →
      old.Pairwise (fun a b => keyE a ≠ keyE b) →
      nd.filterMap (fun day => assocLookup day s.enrichedPartitions) ≠ [] →
      appendToFullFile s nd = some { s with
        rollup := some (dedupByAux keyE [] (old ++
          (nd.filterMap
            (fun day => assocLookup day s.enrichedPartitions)).flatMap
            id)) } ∧
      (∀ r ∈ old, r ∈ dedupByAux keyE [] (old ++
        (nd.filterMap
          (fun day => assocLookup day s.enrichedPartitions)).flatMap id)) ∧
      (∀ r ∈ (nd.filterMap
          (fun day => assocLookup day s.enrichedPartitions)).flatMap id,
        ∃ e ∈ dedupByAux keyE [] (old ++
          (nd.filterMap
            (fun day => assocLookup day s.enrichedPartitions)).flatMap id),
          keyE e = keyE r) ∧
      (dedupByAux keyE [] (old ++
        (nd.filterMap
          (fun day => assocLookup day s.enrichedPartitions)).flatMap
          id)).length =
        old.length + (dedupByAux keyE (old.map keyE)
          ((nd.filterMap
            (fun day => assocLookup day s.enrichedPartitions)).flatMap
            id)).length) := by
  constructor
  · intro s nd hnone
    unfold appendToFullFile
    rw [hnone]
  · intro s nd old hold hpw hne
    have hemp : ¬((nd.filterMap
        (fun day => assocLookup day s.enrichedPartitions)).isEmpty
          = true) := by
      simpa using hne
    refine ⟨?_, ?_, ?_, ?_⟩
    · unfold appendToFullFile
      rw [hold]
      simp only []
      rw [if_neg hemp]
    · intro r hr
      rw [dedupByAux_append keyE old _ [] (fun a _ => by simp) hpw]
      exact List.mem_append_left _ hr
    · intro r hr
      exact exists_key_mem_dedupByAux (by simp)
        ⟨r, List.mem_append_right _ hr, rfl⟩
    · exact length_dedupByAux_append keyE old _ (fun a _ => by simp) hpw

/-- Witness for C7: the fallback at a rollup-less store, and a concrete
append of day 1's partition onto a day-0 rollup. -/
theorem C7_incremental_append_witness :
    appendToFullFile freshPartState [0] = buildFullFile freshPartState ∧
    appendToFullFile divergedState [1] = some { divergedState with
      rollup := some (dedupByAux keyE [] ([sampleEnriched] ++
        (([1] : List Date).filterMap
          (fun day => assocLookup day divergedState.enrichedPartitions)).flatMap
        id)) } :=
  ⟨C7_incremental_append.1 freshPartState [0] rfl,
   (C7_incremental_append.2 divergedState [1] [sampleEnriched] rfl
     (by decide) (by decide)).1⟩

/-- Claim C8: a product whose `extendedData` holds three or more attack
attributes comes out with exactly `attack_1` and `attack_2` populated
(the first two occurrences, in order); every attack attribute beyond the
second is dropped, and no other attack-named column exists in the
flattened row (given the product's own fields are not attack-named, as
in the source catalog's schema). -/
theorem C8_attack_pruning (base presale ext : List (String × String))
    (a1 a2 : String × String) (rest : List (String × String))
    (hatt : attacksOf ext = a1 :: a2 :: rest) (hrest : rest ≠ [])
    (hbase : ∀ kv ∈ base, strBegins kv.1 "attack" = false) :
    dictGet (flattenProduct base presale ext) "attack_1" = some a1.2 ∧
    dictGet (flattenProduct base presale ext) "attack_2" = some a2.2 ∧
    (∀ k, strBegins k "attack" = true → k ≠ "attack_1" →
      k ≠ "attack_2" →
      dictGet (flattenProduct base presale ext) k = none) := by
  have hv1 : dictGet (flattenExt 0 ext) "attack_1" = some a1.2 := by
    have h := flattenExt_attack_value ext 0 0 a1 (by rw [hatt]; rfl)
      (by omega)
    rwa [show ("attack_" ++ toString (0 + 0 + 1) : String) = "attack_1"
      from by decide] at h
  have hv2 : dictGet (flattenExt 0 ext) "attack_2" = some a2.2 := by
    have h := flattenExt_attack_value ext 0 1 a2 (by rw [hatt]; simp)
      (by omega)
    rwa [show ("attack_" ++ toString (0 + 1 + 1) : String) = "attack_2"
      from by decide] at h
  unfold flattenProduct
  refine ⟨?_, ?_, ?_⟩
  · rw [dictGet_append, hv1]
  · rw [dictGet_append, hv2]
  · intro k hk hk1 hk2
    apply dictGet_eq_none
    intro kv hkv hcon
    rcases List.mem_append.1 hkv with hkv1 | hkv2
    · rcases List.mem_append.1 hkv1 with hb | hp
      · have hfalse := hbase kv hb
        rw [hcon, hk] at hfalse
        exact Bool.true_eq_false.mp hfalse
      · rcases List.mem_map.1 hp with ⟨kv0, _, hkv0⟩
        subst hkv0
        rw [← hcon] at hk
        rw [strBegins_presale_concat] at hk
        exact Bool.false_ne_true hk
    · rcases flattenExt_member_keys ext 0 kv hkv2 with h1 | ⟨m, hm1, hm2, hm3⟩
      · rw [hcon, hk] at h1
        exact Bool.true_eq_false.mp h1
      · have hm : m = 1 ∨ m = 2 := by omega
        rcases hm with rfl | rfl
        · rw [show ("attack_" ++ toString 1 : String) = "attack_1"
            from by decide] at hm1
          exact hk1 (hcon.symm.trans hm1)
        · rw [show ("attack_" ++ toString 2 : String) = "attack_2"
            from by decide] at hm1
          exact hk2 (hcon.symm.trans hm1)

/-- Witness for C8 at a product with three attack attributes. -/
theorem C8_attack_pruning_witness :
    dictGet (flattenProduct [("pname", "Pika")] [("note", "n")]
      [("attack_x", "v1"), ("attack_y", "v2"), ("attack_z", "v3")])
      "attack_1" = some "v1" ∧
    dictGet (flattenProduct [("pname", "Pika")] [("note", "n")]
      [("attack_x", "v1"), ("attack_y", "v2"), ("attack_z", "v3")])
      "attack_2" = some "v2" ∧
    dictGet (flattenProduct [("pname", "Pika")] [("note", "n")]
      [("attack_x", "v1"), ("attack_y", "v2"), ("attack_z", "v3")])
      "attack_3" = none :=
  ⟨(C8_attack_pruning [("pname", "Pika")] [("note", "n")]
      [("attack_x", "v1"), ("attack_y", "v2"), ("attack_z", "v3")]
      ("attack_x", "v1") ("attack_y", "v2") [("attack_z", "v3")]
      (by decide) (by decide) (by decide)).1,
   (C8_attack_pruning [("pname", "Pika")] [("note", "n")]
      [("attack_x", "v1"), ("attack_y", "v2"), ("attack_z", "v3")]
      ("attack_x", "v1") ("attack_y", "v2") [("attack_z", "v3")]
      (by decide) (by decide) (by decide)).2.1,
   (C8_attack_pruning [("pname", "Pika")] [("note", "n")]
      [("attack_x", "v1"), ("attack_y", "v2"), ("attack_z", "v3")]
      ("attack_x", "v1") ("attack_y", "v2") [("attack_z", "v3")]
      (by decide) (by decide) (by decide)).2.2 "attack_3"
      (by decide) (by decide) (by decide)⟩

/-- Claim C9: retention.  With distinct raw partition dates (directory
names are unique on disk), pruning keeps at most `keepDays` raw
partitions, all of them from the store, with every deleted partition
strictly older than every kept one and exactly `min keepDays n` of them
kept; the enriched partitions, the rollup, both caches and both tracking
files are untouched. -/
theorem C9_retention (s : PipelineState) (k : Nat)
    (hnd : (s.rawPartitions.map (fun p => p.1)).Nodup) :
    (pruneOldDailyPrices s k).rawPartitions.length ≤ k ∧
    (∀ p ∈ (pruneOldDailyPrices s k).rawPartitions,
      p ∈ s.rawPartitions) ∧
    (∀ p ∈ (pruneOldDailyPrices s k).rawPartitions,
      ∀ q ∈ s.rawPartitions,
        q ∉ (pruneOldDailyPrices s k).rawPartitions → q.1 < p.1) ∧
    (pruneOldDailyPrices s k).rawPartitions.length =
      min k s.rawPartitions.length ∧
    (pruneOldDailyPrices s k).enrichedPartitions =
      s.enrichedPartitions ∧
    (pruneOldDailyPrices s k).rollup = s.rollup ∧
    (pruneOldDailyPrices s k).groupsCache = s.groupsCache ∧
    (pruneOldDailyPrices s k).productsCache = s.productsCache ∧
    (pruneOldDailyPrices s k).processedDays = s.processedDays ∧
    (pruneOldDailyPrices s k).processedProducts =
      s.processedProducts := by
  unfold pruneOldDailyPrices
  by_cases hemp : s.rawPartitions.isEmpty = true
  · rw [if_pos hemp]
    have h0 : s.rawPartitions = [] := by simpa using hemp
    rw [h0]
    refine ⟨by simp, fun p hp => hp, ?_, by simp,
      rfl, rfl, rfl, rfl, rfl, rfl⟩
    intro p hp q hq hqn
    exact absurd hq (List.not_mem_nil q)
  · rw [if_neg hemp]
    simp only []
    have hperm : (s.rawPartitions.insertionSort descByDate).Perm
        s.rawPartitions := List.perm_insertionSort _ _
    have hsort : (s.rawPartitions.insertionSort descByDate).Sorted
        descByDate := List.sorted_insertionSort _ _
    have hsub : ∀ p ∈ (s.rawPartitions.insertionSort descByDate).take k,
        p ∈ s.rawPartitions := fun p hp =>
      hperm.subset ((List.take_sublist k _).subset hp)
    refine ⟨?_, hsub, ?_, ?_, trivial, trivial, trivial, trivial,
      trivial, trivial⟩
    · rw [List.length_take]
      exact Nat.min_le_left _ _
    · intro p hp q hq hqn
      have hqs : q ∈ s.rawPartitions.insertionSort descByDate :=
        hperm.mem_iff.2 hq
      have hqd : q ∈ (s.rawPartitions.insertionSort descByDate).drop k := by
        rw [← List.take_append_drop k
          (s.rawPartitions.insertionSort descByDate)] at hqs
        rcases List.mem_append.1 hqs with h | h
        · exact absurd h hqn
        · exact h
      have hle : descByDate p q :=
        List.Sorted.rel_of_mem_take_of_mem_drop hsort hp hqd
      have hpe : p ∈ s.rawPartitions := hsub p hp
      have hne2 : q.1 ≠ p.1 := by
        intro hcon
        rw [eq_of_fst_eq_of_nodupKeys hnd hq hpe hcon] at hqn
        exact hqn hp
      exact Nat.lt_of_le_of_ne hle hne2
    · rw [List.length_take, hperm.length_eq]

/-- Witness for C9: pruning two raw partitions down to the newest one. -/
theorem C9_retention_witness :
    (pruneOldDailyPrices twoRawState 1).rawPartitions.length ≤ 1 ∧
    (pruneOldDailyPrices twoRawState 1).enrichedPartitions =
      twoRawState.enrichedPartitions ∧
    (pruneOldDailyPrices twoRawState 1).rollup = twoRawState.rollup ∧
    (0, [sampleFact]).1 < (1, [sampleFact2]).1 :=
  ⟨(C9_retention twoRawState 1 (by decide)).1,
   (C9_retention twoRawState 1 (by decide)).2.2.2.2.1,
   (C9_retention twoRawState 1 (by decide)).2.2.2.2.2.1,
   (C9_retention twoRawState 1 (by decide)).2.2.1 (1, [sampleFact2])
     (by decide) (0, [sampleFact]) (by decide) (by decide)⟩

/-- Claim C10: the rollup is produced exclusively by the full rebuild.
When the full-file flag is set and `main` reaches stage 4 (stage 1 did
not abort, some days are new, every new day's raw partition was
readable), the run's final state is `build_full_file` applied to the
post-merge state, followed by pruning; `append_to_full_file` is never
invoked by `main` — although it exists and on a diverged store would
produce a different rollup than the rebuild. -/
theorem C10_full_rebuild_only :
    (∀ (env : Env) (cfg : Config) (s : PipelineState),
      cfg.fullFile = true →
      (buildPrices env cfg.startDate cfg.endDate cfg.interval s).2.2 =
        false →
      (buildPrices env cfg.startDate cfg.endDate cfg.interval s).2.1 ≠
        [] →
      (mainMergeStage env
        (buildPrices env cfg.startDate cfg.endDate cfg.interval s).1
        (buildPrices env cfg.startDate cfg.endDate
          cfg.interval s).2.1).2 = false →
      mainRun env cfg s =
        (match buildFullFile (mainMergeStage env
            (buildPrices env cfg.startDate cfg.endDate cfg.interval s).1
            (buildPrices env cfg.startDate cfg.endDate
              cfg.interval s).2.1).1 with
         | none => (mainMergeStage env
             (buildPrices env cfg.startDate cfg.endDate cfg.interval s).1
             (buildPrices env cfg.startDate cfg.endDate
               cfg.interval s).2.1).1
         | some s4 => pruneOldDailyPrices s4 7)) ∧
    appendToFullFile divergedState [1] ≠ buildFullFile divergedState := by
  constructor
  · intro env cfg s hff hab hne hmg
    simp only [mainRun, mainFinalStages]
    rw [if_neg (show ¬((buildPrices env cfg.startDate cfg.endDate
        cfg.interval s).2.2 = true) from by
      rw [hab]; exact Bool.false_ne_true)]
    rw [if_neg (show ¬((buildPrices env cfg.startDate cfg.endDate
        cfg.interval s).2.1.isEmpty = true) from by
      simpa using hne)]
    rw [if_neg (show ¬((mainMergeStage env
        (buildPrices env cfg.startDate cfg.endDate cfg.interval s).1
        (buildPrices env cfg.startDate cfg.endDate
          cfg.interval s).2.1).2 = true) from by
      rw [hmg]; exact Bool.false_ne_true)]
    rw [if_pos hff]
  · decide

/-- Witness for C10 at a concrete run that reaches stage 4. -/
theorem C10_full_rebuild_only_witness :
    mainRun sampleEnv ⟨0, 1, 1, true⟩ emptyState =
      (match buildFullFile (mainMergeStage sampleEnv
          (buildPrices sampleEnv 0 1 1 emptyState).1
          (buildPrices sampleEnv 0 1 1 emptyState).2.1).1 with
       | none => (mainMergeStage sampleEnv
           (buildPrices sampleEnv 0 1 1 emptyState).1
           (buildPrices sampleEnv 0 1 1 emptyState).2.1).1
       | some s4 => pruneOldDailyPrices s4 7) :=
  C10_full_rebuild_only.1 sampleEnv ⟨0, 1, 1, true⟩ emptyState rfl
    (by decide) (by decide) (by decide)

end TCG
